import Mathlib

/-!
Verification development for the Portable Bookmarks extension: a shallow
embedding of the versioned snapshot store (`git-manager.js`), the change
coalescer and history log (`background.js`), and the options-page import
validation (`options.js`), together with theorems settling the frozen
specification claims.

Modelling conventions:
* Chrome's `chrome.storage.local` slots are explicit `Option` fields of a
  `Storage` record; an absent slot is `none`.
* JS objects used as dictionaries (the commit table, the branch map, the
  event-count map) are association lists; JS property assignment replaces
  an existing key in place and appends a fresh key at the end, which is what
  `insertAssoc` does.
* `Date.now()` reads are explicit `Nat` parameters.
* JS string truthiness (`""` is falsy) is `truthyS`.
* Machine arithmetic: the `<< 5`, `-`, `+`, `& hash` loop of `generateHash`
  works on 32-bit signed integers; `toInt32` is JS `ToInt32` on `Int`.
-/

namespace PortableBookmarks

/-- JS truthiness of a possibly-absent string: `undefined`/`null` and the
empty string are falsy. -/
def truthyS : Option String → Bool
  | none => false
  | some s => !(s == "")

/-- `opt || dflt` for a possibly-absent string value. -/
def truthyGetD (o : Option String) (dflt : String) : String :=
  if truthyS o then o.getD dflt else dflt

/-- JS object property assignment on an association list: replace the value
of an existing key in place, otherwise append the new key at the end
(JS string-key insertion order). -/
def insertAssoc {α : Type} (l : List (String × α)) (k : String) (v : α) :
    List (String × α) :=
  bif l.any (fun p => k == p.1) then
    l.map (fun p => bif k == p.1 then (k, v) else p)
  else l ++ [(k, v)]

/-! ## The hash function (`GitManager.generateHash`)

`generateHash` folds the characters of its input through the 32-bit loop
`hash = ((hash << 5) - hash) + char; hash = hash & hash`, then returns
`Math.abs(hash).toString(16).padStart(8, '0') + Date.now().toString(16)`. -/

/-- JS `ToInt32`: reduce mod 2^32 into the signed range [-2^31, 2^31). -/
def toInt32 (n : Int) : Int :=
  if n % 4294967296 < 2147483648 then n % 4294967296
  else n % 4294967296 - 4294967296

/-- One iteration of the hash loop on a 32-bit accumulator `h` and a
character code `c`: `((h << 5) - h) + c` truncated back to 32 bits. -/
def hashStep (h : Int) (c : Nat) : Int :=
  toInt32 (toInt32 (h * 32) - h + c)

/-- The content component of `generateHash`: the 32-bit checksum of the
input string (character codes, initial accumulator 0). -/
def hashString (s : String) : Int :=
  s.data.foldl (fun h ch => hashStep h ch.toNat) 0

/-- Hex digit character, lowercase, as produced by `Number.toString(16)`. -/
def hexDigitChar (d : Nat) : Char :=
  if d < 10 then Char.ofNat (48 + d) else Char.ofNat (87 + d)

/-- Big-endian hex digits of `n`; the first argument is structural fuel
(any fuel `≥ n` gives the true digit list, no digits for `n = 0`). -/
def toHexFuel : Nat → Nat → List Char
  | _, 0 => []
  | 0, _ + 1 => []
  | f + 1, n + 1 => toHexFuel f ((n + 1) / 16) ++ [hexDigitChar ((n + 1) % 16)]

/-- JS `n.toString(16)` for a nonnegative integer `n`. -/
def natToHex (n : Nat) : String :=
  if n = 0 then "0" else String.mk (toHexFuel n n)

/-- JS `s.padStart(8, '0')`. -/
def padStart8 (s : String) : String :=
  String.mk (List.replicate (8 - s.length) '0' ++ s.data)

/-- `GitManager.generateHash`: content checksum in hex, left-padded to 8
characters, concatenated with the current time in hex.  The `now`
parameter is the `Date.now()` read inside `generateHash`. -/
def generateHash (input : String) (now : Nat) : String :=
  padStart8 (natToHex (hashString input).natAbs) ++ natToHex now

/-! ## Bookmark trees and the Stat Engine (`GitManager.calculateStats`)

A bookmark node is a JS object with an optional `url` string and an
optional `children` value; `children` may be absent/falsy, a truthy
non-array value, or an array of nodes.  `BForest` models a JS array of
nodes.  A top-level `bookmarkData` value is itself either an array or not
(`Array.isArray` check), so it is also a `BChildren`. -/

mutual

inductive BNode : Type where
  | mk (url : Option String) (children : BChildren)

inductive BChildren : Type where
  | absent
  | nonArr
  | arr (xs : BForest)

inductive BForest : Type where
  | nil
  | cons (hd : BNode) (tl : BForest)

end

/-- The `bookmarkData` argument of `createCommit`/`calculateStats`: an
arbitrary JS value that is either an array of nodes or not. -/
abbrev BookmarkData := BChildren

/-- `stats` record computed at commit time. -/
structure Stats where
  totalBookmarks : Nat
  totalFolders : Nat
  totalItems : Nat
  deriving DecidableEq

mutual

/-- The `countItems` closure of `calculateStats`, with the two mutable
counters `(totalBookmarks, totalFolders)` passed as an accumulator. For
each node: a truthy `url` increments the bookmark counter, otherwise the
folder counter is incremented; a truthy `children` recurses (contributing
nothing unless it is an array). -/
def countItems : BForest → Nat × Nat → Nat × Nat
  | .nil, acc => acc
  | .cons (.mk url ch) rest, (b, f) =>
    countItems rest
      (countChildren ch (if truthyS url then (b + 1, f) else (b, f + 1)))

/-- `if (node.children) countItems(node.children)`: only a truthy array
recurses; `countItems` returns immediately on a truthy non-array. -/
def countChildren : BChildren → Nat × Nat → Nat × Nat
  | .arr xs, acc => countItems xs acc
  | _, acc => acc

end

/-- `GitManager.calculateStats`: zero for a non-array top level, otherwise
the accumulated counts with `totalItems` their sum. -/
def calculateStats (bookmarkData : BookmarkData) : Stats :=
  match bookmarkData with
  | .arr xs =>
    let (b, f) := countItems xs (0, 0)
    ⟨b, f, b + f⟩
  | _ => ⟨0, 0, 0⟩

mutual

/-- Models `JSON.stringify` on a bookmark node (used only as the
content-serialization component of the hash input; the theorems rely only
on it being a function of the tree). -/
def stringifyNode : BNode → String
  | .mk url ch =>
    "\x7burl:" ++ (match url with | some u => u | none => "-") ++
      ",children:" ++ stringifyChildren ch ++ "\x7d"

/-- Serialization of a `children` value. -/
def stringifyChildren : BChildren → String
  | .absent => "-"
  | .nonArr => "?"
  | .arr xs => "[" ++ stringifyForest xs ++ "]"

/-- Serialization of an array of nodes. -/
def stringifyForest : BForest → String
  | .nil => ""
  | .cons n rest => stringifyNode n ++ "," ++ stringifyForest rest

end

/-- Serialization of a top-level `bookmarkData` value. -/
def stringifyData (d : BookmarkData) : String := stringifyChildren d

mutual

/-- Specification-side leaf count: one per node with a truthy target
reference, summed recursively over children arrays. -/
def leafCountF : BForest → Nat
  | .nil => 0
  | .cons (.mk url ch) rest =>
    (if truthyS url then 1 else 0) + leafCountC ch + leafCountF rest

/-- Leaf count below a `children` value. -/
def leafCountC : BChildren → Nat
  | .arr xs => leafCountF xs
  | _ => 0

end

mutual

/-- Specification-side container count: one per node without a truthy
target reference, summed recursively over children arrays. -/
def folderCountF : BForest → Nat
  | .nil => 0
  | .cons (.mk url ch) rest =>
    (if truthyS url then 0 else 1) + folderCountC ch + folderCountF rest

/-- Container count below a `children` value. -/
def folderCountC : BChildren → Nat
  | .arr xs => folderCountF xs
  | _ => 0

end

/-! ## Commit Store state (`GitManager` over `chrome.storage.local`) -/

/-- Author / committer record. -/
structure Author where
  name : String
  email : String
  timestamp : Nat
  deriving DecidableEq

/-- A commit object as built by `createCommit`. -/
structure Commit where
  hash : String
  message : String
  author : Author
  committer : Author
  parent : Option String
  tree : String
  data : BookmarkData
  stats : Stats

/-- The repository record stored under `bookmark_git_repo`. -/
structure Repo where
  rInitialized : Bool
  created : Nat
  head : Option String
  branches : List (String × Option String)
  deriving DecidableEq

/-- `config.user`. -/
structure GitUser where
  name : Option String
  email : Option String
  deriving DecidableEq

/-- The configuration record stored under `git_config`. -/
structure Config where
  user : Option GitUser
  deriving DecidableEq

/-- The commit table stored under `bookmark_commits`: a JS object mapping
hash to commit (keys distinct, in insertion order). -/
abbrev CommitTable := List (String × Commit)

/-- The four `chrome.storage.local` slots owned by the Commit Store; an
absent slot is `none`. -/
structure Storage where
  repo : Option Repo
  commits : Option CommitTable
  branch : Option String
  config : Option Config

/-- The default configuration written by `ensureRepository`. -/
def defaultConfig : Config :=
  ⟨some ⟨some "Bookmark Git Tracker", some "bookmark-tracker@extension.local"⟩⟩

/-- `GitManager.ensureRepository`: if no repository record exists, write a
fresh repository (`head = null`, branch map `main → null`), an empty commit
table, current branch `"main"` and the default configuration; otherwise
leave storage untouched. -/
def ensureRepository (st : Storage) (now : Nat) : Storage :=
  match st.repo with
  | some _ => st
  | none =>
    { repo := some ⟨true, now, none, [("main", none)]⟩
      commits := some []
      branch := some "main"
      config := some defaultConfig }

/-- `GitManager` instance state: the in-memory `initialized` flag plus the
persistent storage. -/
structure GMState where
  gmFlag : Bool
  storage : Storage

/-- `GitManager.initialize`: a no-op when the in-memory flag is set,
otherwise `ensureRepository` and set the flag. -/
def initializeGM (g : GMState) (now : Nat) : GMState :=
  if g.gmFlag then g else ⟨true, ensureRepository g.storage now⟩

/-- `GitManager.resetRepository`: remove the repository record, commit
table and branch pointer (the configuration slot is kept), then
re-initialize, which recreates all four slots with defaults. -/
def resetRepository (st : Storage) (now : Nat) : Storage :=
  ensureRepository { repo := none, commits := none, branch := none, config := st.config } now

/-- The hash input of `createCommit`:
`Date.now() + message + JSON.stringify(bookmarkData)` (number-string
concatenation). -/
def hashInput (bookmarkData : BookmarkData) (message : String) (now : Nat) : String :=
  toString now ++ message ++ stringifyData bookmarkData

/-- The hash `createCommit` generates for a call with the given snapshot,
message and `Date.now()` value (independent of the stored state). -/
def hashOfCall (bookmarkData : BookmarkData) (message : String) (now : Nat) : String :=
  generateHash (hashInput bookmarkData message now) now

/-- `config.user?.name || default` and the email analogue. -/
def configName (cfg : Config) : String :=
  truthyGetD (cfg.user.bind (fun u => u.name)) "Bookmark Git Tracker"

/-- Committer email with default. -/
def configEmail (cfg : Config) : String :=
  truthyGetD (cfg.user.bind (fun u => u.email)) "bookmark-tracker@extension.local"

/-- `GitManager.createCommit`: reads the four slots, builds the commit
object whose `parent` is the current head, stores it in the table, and
advances both `head` and the current branch's pointer to the new hash.
Throws (models as `Except.error`) when the repository record is absent
(`repo.head` on `undefined`). -/
def createCommit (st : Storage) (bookmarkData : BookmarkData) (message : String)
    (now : Nat) : Except String (Storage × String) :=
  match st.repo with
  | none => .error "repository record missing"
  | some repo =>
    let commitHash := hashOfCall bookmarkData message now
    let commits := st.commits.getD []
    let currentBranch := truthyGetD st.branch "main"
    let cfg := st.config.getD ⟨none⟩
    let person : Author := ⟨configName cfg, configEmail cfg, now⟩
    let commit : Commit :=
      { hash := commitHash
        message := message
        author := person
        committer := person
        parent := repo.head
        tree := commitHash ++ "_tree"
        data := bookmarkData
        stats := calculateStats bookmarkData }
    let commits' := insertAssoc commits commitHash commit
    let repo' : Repo :=
      { repo with
        head := some commitHash
        branches := insertAssoc repo.branches currentBranch (some commitHash) }
    .ok ({ st with repo := some repo', commits := some commits' }, commitHash)

/-- A sequence of `createCommit` calls, each given by its snapshot, message
and `Date.now()` value; stops at the first failure, returning the final
storage and the hashes in call order. -/
def createCommitN (st : Storage) :
    List (BookmarkData × String × Nat) → Except String (Storage × List String)
  | [] => .ok (st, [])
  | (d, m, t) :: rest => do
    let (st', h) ← createCommit st d m t
    let (st'', hs) ← createCommitN st' rest
    return (st'', h :: hs)

/-! ## History traversal (`GitManager.getCommitHistory`) -/

/-- A history entry returned by `getCommitHistory`; `date` models the ISO
rendering of the committer timestamp by the timestamp itself. -/
structure CommitSummary where
  hash : String
  shortHash : String
  message : String
  author : Author
  committer : Author
  stats : Stats
  date : Nat
  deriving DecidableEq

/-- JS `s.substring(0, 8)`: the first (at most) 8 characters. -/
def jsSubstring8 (s : String) : String := String.mk (s.data.take 8)

/-- The summary built for one commit in the history loop; `shortHash` is
`commit.hash.substring(0, 8)`. -/
def mkSummary (c : Commit) : CommitSummary :=
  ⟨c.hash, jsSubstring8 c.hash, c.message, c.author, c.committer, c.stats,
    c.committer.timestamp⟩

/-- The `while (currentHash && count < limit)` walk: look the current hash
up in the table, stop when it is absent (broken chain) or the hash is null
or the entry budget is exhausted, otherwise emit a summary and follow
`parent`. -/
def walkHistory (commits : CommitTable) : Option String → Nat → List CommitSummary
  | _, 0 => []
  | none, _ => []
  | some h, fuel + 1 =>
    match List.lookup h commits with
    | none => []
    | some c => mkSummary c :: walkHistory commits c.parent fuel

/-- `GitManager.getCommitHistory`: empty when the repository record is
absent or `head` is null, otherwise the walk from `head` bounded by
`limit`. -/
def getCommitHistory (st : Storage) (limit : Nat) : List CommitSummary :=
  match st.repo with
  | none => []
  | some repo =>
    match repo.head with
    | none => []
    | some h => walkHistory (st.commits.getD []) (some h) limit

/-! ## Repository statistics, export and import -/

/-- The result of `GitManager.getRepositoryStats`. -/
structure RepoStats where
  sInitialized : Bool
  totalCommits : Nat
  branches : Nat
  currentBranch : String
  headCommit : Option String
  created : Option Nat
  lastCommit : Option Nat

/-- `GitManager.getRepositoryStats` (fields read from the repo record and
commit table; `lastCommit` is `commits[repo.head]?.committer?.timestamp`
when a head exists). -/
def getRepositoryStats (st : Storage) : RepoStats :=
  let commits := st.commits.getD []
  { sInitialized := st.repo.isSome
    totalCommits := commits.length
    branches := match st.repo with | some r => r.branches.length | none => 0
    currentBranch := truthyGetD st.branch "main"
    headCommit := st.repo.bind (fun r => r.head)
    created := st.repo.map (fun r => r.created)
    lastCommit :=
      match st.repo with
      | some r =>
        match r.head with
        | some h => (List.lookup h commits).map (fun c => c.committer.timestamp)
        | none => none
      | none => none }

/-- An export bundle (`GitManager.exportRepository` output /
`importRepository` input). -/
structure Bundle where
  repository : Option Repo
  commits : Option CommitTable
  currentBranch : Option String
  config : Option Config
  exportDate : String
  version : Option String

/-- `GitManager.exportRepository`: the four storage slots packaged with an
export date and format version. -/
def exportRepository (st : Storage) (dateStr : String) : Bundle :=
  ⟨st.repo, st.commits, st.branch, st.config, dateStr, some "1.0.0"⟩

/-- `BookmarkTracker.importRepository`: reset the current repository, then
write the bundle's slots.  A `chrome.storage.local.set` value that is
`undefined` leaves the slot as the reset left it; `data.currentBranch ||
'main'` and `data.config || {}` are always written. -/
def importRepository (st : Storage) (data : Bundle) (now : Nat) : Storage :=
  let st1 := resetRepository st now
  { repo := match data.repository with | some r => some r | none => st1.repo
    commits := match data.commits with | some c => some c | none => st1.commits
    branch := some (truthyGetD data.currentBranch "main")
    config := some (data.config.getD ⟨none⟩) }

/-- `OptionsController.validateBackupData`: presence (truthiness) checks
for `repository`, `commits` and `version`. -/
def validateBackupData (data : Bundle) : Bool :=
  data.repository.isSome && data.commits.isSome && truthyS data.version

/-- The options-page import path (`OptionsController.handleFileImport`
after a successful parse, with the confirmation accepted): an invalid
bundle is rejected with an error before anything touches storage; a valid
one goes through `importRepository`.  The boolean is `true` on success. -/
def handleFileImport (st : Storage) (data : Bundle) (now : Nat) : Storage × Bool :=
  if validateBackupData data then (importRepository st data now, true)
  else (st, false)

/-! ## Change Coalescer (`BookmarkTracker`) -/

/-- The payload fields of a mutation event used by message generation: the
changed node's id and, for `created` events, the new bookmark's title and
url (`details.bookmark.title` / `details.bookmark.url`). -/
structure Details where
  id : String
  title : Option String
  url : Option String
  deriving DecidableEq

/-- An entry of `this.pendingChanges`: the event with its arrival time. -/
structure PendingChange where
  timestamp : Nat
  eventType : String
  details : Details
  deriving DecidableEq

/-- `BookmarkTracker.generateCommitMessage`: event-type-specific text for a
single buffered change, or a summary of event-type counts (in first-seen
order) for a multi-change burst. -/
def generateCommitMessage (changes : List PendingChange) : String :=
  match changes with
  | [c] =>
    match c.eventType with
    | "created" =>
      "Added bookmark: " ++
        (if truthyS c.details.title then c.details.title.getD "" else
          if truthyS c.details.url then c.details.url.getD "" else "New folder")
    | "removed" => "Removed bookmark (ID: " ++ c.details.id ++ ")"
    | "moved" => "Moved bookmark (ID: " ++ c.details.id ++ ")"
    | "changed" => "Modified bookmark (ID: " ++ c.details.id ++ ")"
    | "reordered" => "Reordered bookmarks in folder (ID: " ++ c.details.id ++ ")"
    | "import_began" => "Started bookmark import"
    | "import_ended" => "Completed bookmark import"
    | other => "Bookmark " ++ other
  | cs =>
    let counts := cs.foldl (fun acc c =>
      if acc.any (fun p => p.1 == c.eventType) then
        acc.map (fun p => if p.1 == c.eventType then (p.1, p.2 + 1) else p)
      else acc ++ [(c.eventType, 1)]) ([] : List (String × Nat))
    "Bulk bookmark changes: " ++
      String.intercalate ", " (counts.map (fun p => toString p.2 ++ " " ++ p.1))

/-- The coalescer's in-memory state: the pending-change buffer and the
scheduled fire time of the debounce timer, if one is pending. -/
structure CoalescerState where
  pendingChanges : List PendingChange
  bufferFire : Option Nat
  deriving DecidableEq

/-- `BookmarkTracker.handleBookmarkChange`: append the event to the buffer,
cancel any pending timer and schedule a new one `delay` ms from now (the
quiet period restarts on every event). -/
def handleBookmarkChange (st : CoalescerState) (eventType : String)
    (details : Details) (now delay : Nat) : CoalescerState :=
  { pendingChanges := st.pendingChanges ++ [⟨now, eventType, details⟩]
    bufferFire := some (now + delay) }

/-- `BookmarkTracker.processBufferedChanges`: return immediately on an
empty buffer; otherwise attempt the commit.  `commitOk` models whether the
awaited `createCommit` succeeds.  On success the batch is committed and the
buffer and timer handle are cleared; on failure the thrown error is caught
after the clearing statements were skipped, so the state is unchanged.
The second component is the batch committed, if any. -/
def processBufferedChanges (st : CoalescerState) (commitOk : Bool) :
    CoalescerState × Option (List PendingChange) :=
  match st.pendingChanges with
  | [] => (st, none)
  | _ :: _ =>
    bif commitOk then (⟨[], none⟩, some st.pendingChanges) else (st, none)

/-- A raw mutation event on the timeline: arrival time, type, payload. -/
abbrev RawEvent := Nat × String × Details

/-- Discrete-event run of the coalescer over a timeline of events, with
every commit attempt succeeding: before handling an event, a pending timer
whose fire time lies strictly before the event fires
(`processBufferedChanges`); after the last event, a pending timer fires.
Returns the committed batches in order. -/
def runEvents (delay : Nat) (st : CoalescerState) : List RawEvent → List (List PendingChange)
  | [] =>
    match st.bufferFire with
    | some _ => (processBufferedChanges st true).2.toList
    | none => []
  | (t, ev, d) :: rest =>
    match st.bufferFire with
    | some f =>
      if f < t then
        (processBufferedChanges st true).2.toList ++
          runEvents delay
            (handleBookmarkChange (processBufferedChanges st true).1 ev d t delay) rest
      else
        runEvents delay (handleBookmarkChange st ev d t delay) rest
    | none => runEvents delay (handleBookmarkChange st ev d t delay) rest

/-- The pending-change record an event turns into. -/
def toPending (e : RawEvent) : PendingChange := ⟨e.1, e.2.1, e.2.2⟩

/-- Reference grouping of a timeline into batches: a new event within
`delay` of the previous one joins the current batch, otherwise the batch
is flushed.  `buf` is the open batch, `lastT` the previous event's time. -/
def coalesceGo (delay : Nat) (buf : List PendingChange) (lastT : Nat) :
    List RawEvent → List (List PendingChange)
  | [] => [buf]
  | e :: rest =>
    if lastT + delay < e.1 then
      buf :: coalesceGo delay [toPending e] e.1 rest
    else
      coalesceGo delay (buf ++ [toPending e]) e.1 rest

/-- Reference grouping of a full timeline. -/
def coalesce (delay : Nat) : List RawEvent → List (List PendingChange)
  | [] => []
  | e :: rest => coalesceGo delay [toPending e] e.1 rest

/-! ## Change-history log (`BookmarkTracker.storeChangeHistory`) -/

/-- An entry of the persisted `changeHistory` list. -/
structure HistoryEntry where
  timestamp : Nat
  changes : List PendingChange
  commitMessage : String
  deriving DecidableEq

/-- `BookmarkTracker.storeChangeHistory`: prepend (`unshift`) the new entry
and drop everything past index 99 (`splice(100)`) when the list exceeds
100 entries, returning the list written back to storage. -/
def storeChangeHistory (history : List HistoryEntry)
    (changes : List PendingChange) (now : Nat) : List HistoryEntry :=
  let entry : HistoryEntry := ⟨now, changes, generateCommitMessage changes⟩
  let h := entry :: history
  if h.length > 100 then h.take 100 else h

/-! ## Lemmas about association-list assignment -/

theorem lookup_append_singleton_self {α : Type} (l : List (String × α)) (k : String) (v : α)
    (h : ∀ p ∈ l, (k == p.1) = false) :
    List.lookup k (l ++ [(k, v)]) = some v := by
  induction l with
  | nil => simp [List.lookup]
  | cons p rest ih =>
    have hp : (k == p.1) = false := h p (List.mem_cons_self p rest)
    simp only [List.cons_append, List.lookup, hp]
    exact ih (fun q hq => h q (List.mem_cons_of_mem p hq))

theorem lookup_map_update {α : Type} (l : List (String × α)) (k : String) (v : α)
    (h : l.any (fun p => k == p.1) = true) :
    List.lookup k (l.map (fun p => bif k == p.1 then (k, v) else p)) = some v := by
  induction l with
  | nil => simp at h
  | cons p rest ih =>
    cases hp : (k == p.1) with
    | true => simp [List.lookup, hp]
    | false =>
      have hrest : rest.any (fun p => k == p.1) = true := by
        simp only [List.any_cons, hp, Bool.false_or] at h
        exact h
      simp only [List.map_cons, hp, cond_false, List.lookup, ih hrest]

/-- Looking up the just-assigned key returns the new value. -/
theorem lookup_insertAssoc_self {α : Type} (l : List (String × α)) (k : String) (v : α) :
    List.lookup k (insertAssoc l k v) = some v := by
  unfold insertAssoc
  cases h : l.any (fun p => k == p.1) with
  | true =>
    simp only [cond_true]
    exact lookup_map_update l k v h
  | false =>
    simp only [cond_false]
    refine lookup_append_singleton_self l k v ?_
    intro p hp
    cases hpk : (k == p.1) with
    | true =>
      exfalso
      have : l.any (fun p => k == p.1) = true := List.any_eq_true.mpr ⟨p, hp, hpk⟩
      rw [h] at this
      exact Bool.false_ne_true this
    | false => rfl

theorem lookup_map_update_ne {α : Type} (l : List (String × α)) (k k' : String) (v : α)
    (hkk' : (k' == k) = false) :
    List.lookup k' (l.map (fun p => bif k == p.1 then (k, v) else p)) =
      List.lookup k' l := by
  induction l with
  | nil => simp
  | cons p rest ih =>
    cases hp : (k == p.1) with
    | true =>
      have hpk' : (k' == p.1) = false := by
        rw [← beq_iff_eq.mp hp]; exact hkk'
      simp only [List.map_cons, hp, cond_true, List.lookup, hkk', hpk', ih]
    | false =>
      simp only [List.map_cons, hp, cond_false, List.lookup]
      cases hq : (k' == p.1) with
      | true => rfl
      | false => exact ih

theorem lookup_append_singleton_ne {α : Type} (l : List (String × α)) (k k' : String) (v : α)
    (hkk' : (k' == k) = false) :
    List.lookup k' (l ++ [(k, v)]) = List.lookup k' l := by
  induction l with
  | nil => simp [List.lookup, hkk']
  | cons p rest ih =>
    simp only [List.cons_append, List.lookup]
    cases hq : (k' == p.1) with
    | true => rfl
    | false => exact ih

/-- Assigning key `k` does not change the lookup of a different key. -/
theorem lookup_insertAssoc_ne {α : Type} (l : List (String × α)) (k k' : String) (v : α)
    (hne : k' ≠ k) :
    List.lookup k' (insertAssoc l k v) = List.lookup k' l := by
  have hkk' : (k' == k) = false := by
    cases hx : (k' == k) with
    | true => exact absurd (beq_iff_eq.mp hx) hne
    | false => rfl
  unfold insertAssoc
  cases h : l.any (fun p => k == p.1) with
  | true =>
    simp only [cond_true]
    exact lookup_map_update_ne l k k' v hkk'
  | false =>
    simp only [cond_false]
    exact lookup_append_singleton_ne l k k' v hkk'

/-! ## Lemmas about the hex encoding and the hash -/

/-- Value of a lowercase hex digit character. -/
def hexVal (c : Char) : Nat :=
  if c.toNat ≤ 57 then c.toNat - 48 else c.toNat - 87

/-- Value of a big-endian hex digit list. -/
def hexListVal (l : List Char) : Nat :=
  l.foldl (fun a c => 16 * a + hexVal c) 0

theorem hexVal_hexDigitChar : ∀ d, d < 16 → hexVal (hexDigitChar d) = d := by decide

theorem toHexFuel_zero (f : Nat) : toHexFuel f 0 = [] := by
  cases f <;> rfl

theorem hexListVal_append_digit (l : List Char) (c : Char) :
    hexListVal (l ++ [c]) = 16 * hexListVal l + hexVal c := by
  unfold hexListVal
  rw [List.foldl_append]
  rfl

theorem hexListVal_toHexFuel : ∀ f n, n ≤ f → hexListVal (toHexFuel f n) = n := by
  intro f
  induction f with
  | zero =>
    intro n hn
    have : n = 0 := Nat.le_zero.mp hn
    subst this
    simp [toHexFuel_zero, hexListVal]
  | succ f ih =>
    intro n hn
    cases n with
    | zero => simp [toHexFuel_zero, hexListVal]
    | succ m =>
      have hdiv : (m + 1) / 16 ≤ f := by
        have h1 : (m + 1) / 16 < m + 1 := Nat.div_lt_self (Nat.succ_pos m) (by norm_num)
        omega
      have hmod : (m + 1) % 16 < 16 := Nat.mod_lt _ (by norm_num)
      show hexListVal (toHexFuel f ((m + 1) / 16) ++ [hexDigitChar ((m + 1) % 16)]) = m + 1
      rw [hexListVal_append_digit, ih _ hdiv, hexVal_hexDigitChar _ hmod]
      exact Nat.div_add_mod (m + 1) 16

theorem natToHex_inj : ∀ a b, natToHex a = natToHex b → a = b := by
  intro a b h
  unfold natToHex at h
  by_cases ha : a = 0 <;> by_cases hb : b = 0
  · omega
  · exfalso
    simp only [ha, if_true, hb, if_false] at h
    have hd : ([ '0' ] : List Char) = toHexFuel b b := congrArg String.data h
    have := hexListVal_toHexFuel b b (Nat.le_refl b)
    rw [← hd] at this
    simp [hexListVal, hexVal] at this
    omega
  · exfalso
    simp only [ha, if_false, hb, if_true] at h
    have hd : toHexFuel a a = ([ '0' ] : List Char) := congrArg String.data h
    have := hexListVal_toHexFuel a a (Nat.le_refl a)
    rw [hd] at this
    simp [hexListVal, hexVal] at this
    omega
  · simp only [ha, hb, if_false] at h
    have hd : toHexFuel a a = toHexFuel b b := congrArg String.data h
    have h1 := hexListVal_toHexFuel a a (Nat.le_refl a)
    have h2 := hexListVal_toHexFuel b b (Nat.le_refl b)
    rw [hd] at h1
    omega

theorem toHexFuel_length : ∀ k f n, n < 16 ^ k → (toHexFuel f n).length ≤ k := by
  intro k
  induction k with
  | zero =>
    intro f n hn
    have : n = 0 := by simpa using hn
    subst this
    simp [toHexFuel_zero]
  | succ k ih =>
    intro f n hn
    cases n with
    | zero => simp [toHexFuel_zero]
    | succ m =>
      cases f with
      | zero => simp [toHexFuel]
      | succ f =>
        have hdiv : (m + 1) / 16 < 16 ^ k := by
          rw [Nat.div_lt_iff_lt_mul (by norm_num : (0:Nat) < 16)]
          calc m + 1 < 16 ^ (k + 1) := hn
            _ = 16 ^ k * 16 := by ring
        show (toHexFuel f ((m + 1) / 16) ++ [hexDigitChar ((m + 1) % 16)]).length ≤ k + 1
        rw [List.length_append]
        have := ih f ((m + 1) / 16) hdiv
        simp only [List.length_singleton]
        omega

theorem natToHex_length_le8 (n : Nat) (h : n ≤ 2147483648) :
    (natToHex n).length ≤ 8 := by
  unfold natToHex
  by_cases h0 : n = 0
  · simp only [h0, if_true]
    decide
  · simp only [h0, if_false]
    show (toHexFuel n n).length ≤ 8
    exact toHexFuel_length 8 n n (by omega)

theorem toInt32_bounds (n : Int) :
    -2147483648 ≤ toInt32 n ∧ toInt32 n < 2147483648 := by
  unfold toInt32
  have h0 : (0:Int) ≤ n % 4294967296 := Int.emod_nonneg n (by norm_num)
  have h1 : n % 4294967296 < 4294967296 := Int.emod_lt_of_pos n (by norm_num)
  split <;> omega

theorem hashStep_bounds (h : Int) (c : Nat) :
    -2147483648 ≤ hashStep h c ∧ hashStep h c < 2147483648 :=
  toInt32_bounds _

theorem foldl_hashStep_bounds :
    ∀ (l : List Char) (h : Int), -2147483648 ≤ h → h < 2147483648 →
      -2147483648 ≤ l.foldl (fun h ch => hashStep h ch.toNat) h ∧
        l.foldl (fun h ch => hashStep h ch.toNat) h < 2147483648 := by
  intro l
  induction l with
  | nil => intro h hl hu; exact ⟨hl, hu⟩
  | cons c rest ih =>
    intro h hl hu
    have hb := hashStep_bounds h c.toNat
    exact ih (hashStep h c.toNat) hb.1 hb.2

theorem hashString_natAbs_le (s : String) : (hashString s).natAbs ≤ 2147483648 := by
  have := foldl_hashStep_bounds s.data 0 (by norm_num) (by norm_num)
  unfold hashString
  omega

theorem padStart8_length (s : String) (h : s.length ≤ 8) :
    (padStart8 s).length = 8 := by
  show (List.replicate (8 - s.length) '0' ++ s.data).length = 8
  rw [List.length_append, List.length_replicate]
  have : s.data.length = s.length := rfl
  omega

/-- The trailing time component of `generateHash` makes the hash injective
in the `Date.now()` value: calls with different timestamps always get
different hashes, whatever their content. -/
theorem generateHash_time_inj (s₁ s₂ : String) (t₁ t₂ : Nat)
    (h : generateHash s₁ t₁ = generateHash s₂ t₂) : t₁ = t₂ := by
  unfold generateHash at h
  have hd := congrArg String.data h
  rw [String.data_append, String.data_append] at hd
  have hl1 : (padStart8 (natToHex (hashString s₁).natAbs)).length = 8 :=
    padStart8_length _ (natToHex_length_le8 _ (hashString_natAbs_le s₁))
  have hl2 : (padStart8 (natToHex (hashString s₂).natAbs)).length = 8 :=
    padStart8_length _ (natToHex_length_le8 _ (hashString_natAbs_le s₂))
  have hlen : (padStart8 (natToHex (hashString s₁).natAbs)).data.length =
      (padStart8 (natToHex (hashString s₂).natAbs)).data.length := by
    show (padStart8 (natToHex (hashString s₁).natAbs)).length =
      (padStart8 (natToHex (hashString s₂).natAbs)).length
    rw [hl1, hl2]
  have := (List.append_inj hd hlen).2
  exact natToHex_inj t₁ t₂ (String.ext this)

/-! ## Lemmas about the Stat Engine -/

mutual

theorem countItems_eq : ∀ (xs : BForest) (b f : Nat),
    countItems xs (b, f) = (b + leafCountF xs, f + folderCountF xs)
  | .nil, b, f => by
    simp [countItems, leafCountF, folderCountF]
  | .cons (.mk url ch) rest, b, f => by
    cases hu : truthyS url with
    | true =>
      have h1 := countChildren_eq ch (b + 1) f
      have h2 := countItems_eq rest (b + 1 + leafCountC ch) (f + folderCountC ch)
      simp only [countItems, hu, if_true, h1, h2, leafCountF, folderCountF, if_false,
        Prod.mk.injEq]
      omega
    | false =>
      have h1 := countChildren_eq ch b (f + 1)
      have h2 := countItems_eq rest (b + leafCountC ch) (f + 1 + folderCountC ch)
      simp only [countItems, hu, if_true, h1, h2, leafCountF, folderCountF, if_false,
        Bool.false_eq_true, Prod.mk.injEq]
      omega

theorem countChildren_eq : ∀ (ch : BChildren) (b f : Nat),
    countChildren ch (b, f) = (b + leafCountC ch, f + folderCountC ch)
  | .absent, b, f => by simp [countChildren, leafCountC, folderCountC]
  | .nonArr, b, f => by simp [countChildren, leafCountC, folderCountC]
  | .arr xs, b, f => by
    have h := countItems_eq xs b f
    simp only [countChildren, h, leafCountC, folderCountC]

end

/-- `calculateStats` equals the one-pass declarative counts: each node with
a truthy target reference contributes exactly one leaf, every other node
contributes exactly one container, children arrays are summed recursively,
and any non-array level contributes zero. -/
theorem calculateStats_eq (d : BookmarkData) :
    calculateStats d = ⟨leafCountC d, folderCountC d, leafCountC d + folderCountC d⟩ := by
  cases d with
  | absent => simp [calculateStats, leafCountC, folderCountC]
  | nonArr => simp [calculateStats, leafCountC, folderCountC]
  | arr xs =>
    simp only [calculateStats, countItems_eq xs 0 0, Nat.zero_add, leafCountC, folderCountC]

/-! ## Lemmas about history traversal -/

/-- Shrinking the entry budget truncates the walk: the walk with budget
`f₁ ≤ f₂` is the prefix of the walk with budget `f₂`. -/
theorem walkHistory_take (commits : CommitTable) :
    ∀ f₁ f₂ (oh : Option String), f₁ ≤ f₂ →
      walkHistory commits oh f₁ = (walkHistory commits oh f₂).take f₁ := by
  intro f₁
  induction f₁ with
  | zero => intro f₂ oh h; simp [walkHistory]
  | succ f₁ ih =>
    intro f₂ oh h
    cases f₂ with
    | zero => omega
    | succ f₂ =>
      cases oh with
      | none => simp [walkHistory]
      | some hsh =>
        show (match List.lookup hsh commits with
          | none => []
          | some c => mkSummary c :: walkHistory commits c.parent f₁) =
          List.take (f₁ + 1) (match List.lookup hsh commits with
          | none => []
          | some c => mkSummary c :: walkHistory commits c.parent f₂)
        cases List.lookup hsh commits with
        | none => simp
        | some c => simp [List.take_succ_cons, ih f₂ c.parent (Nat.le_of_succ_le_succ h)]

/-- The walk never returns more entries than its budget. -/
theorem walkHistory_length_le (commits : CommitTable) :
    ∀ fuel (oh : Option String), (walkHistory commits oh fuel).length ≤ fuel := by
  intro fuel
  induction fuel with
  | zero => intro oh; simp [walkHistory]
  | succ fuel ih =>
    intro oh
    cases oh with
    | none => simp [walkHistory]
    | some hsh =>
      show (match List.lookup hsh commits with
        | none => []
        | some c => mkSummary c :: walkHistory commits c.parent fuel).length ≤ fuel + 1
      cases List.lookup hsh commits with
      | none => simp
      | some c =>
        have := ih c.parent
        simp only [List.length_cons]
        omega

/-- Every summary the walk returns displays the first 8 characters of its
full hash as `shortHash`. -/
theorem walkHistory_shortHash (commits : CommitTable) :
    ∀ fuel (oh : Option String) s, s ∈ walkHistory commits oh fuel →
      s.shortHash = jsSubstring8 s.hash := by
  intro fuel
  induction fuel with
  | zero => intro oh s hs; simp [walkHistory] at hs
  | succ fuel ih =>
    intro oh s hs
    cases oh with
    | none => simp [walkHistory] at hs
    | some hsh =>
      simp only [walkHistory] at hs
      cases hl : List.lookup hsh commits with
      | none => rw [hl] at hs; simp at hs
      | some c =>
        rw [hl] at hs
        simp only [List.mem_cons] at hs
        cases hs with
        | inl h => subst h; rfl
        | inr h => exact ih c.parent s h

/-- A key whose lookup fails ends the walk without error. -/
theorem walkHistory_broken (commits : CommitTable) (hsh : String) (fuel : Nat)
    (h : List.lookup hsh commits = none) :
    walkHistory commits (some hsh) (fuel + 1) = [] := by
  simp [walkHistory, h]

/-- Well-formedness of a commit table: every commit is stored under its own
hash field.  Every table `createCommit` produces has this shape. -/
def WFTable (commits : CommitTable) : Prop :=
  ∀ p ∈ commits, p.2.hash = p.1

instance (commits : CommitTable) : Decidable (WFTable commits) :=
  inferInstanceAs (Decidable (∀ p ∈ commits, p.2.hash = p.1))

theorem lookup_mem {α : Type} :
    ∀ (l : List (String × α)) (k : String) (c : α),
      List.lookup k l = some c → (k, c) ∈ l := by
  intro l
  induction l with
  | nil => intro k c h; simp [List.lookup] at h
  | cons p rest ih =>
    intro k c h
    simp only [List.lookup] at h
    cases hk : (k == p.1) with
    | true =>
      rw [hk] at h
      have h1 : p.2 = c := by simpa using h
      have h2 : k = p.1 := beq_iff_eq.mp hk
      subst h2
      rw [← h1]
      exact List.mem_cons_self _ _
    | false =>
      rw [hk] at h
      exact List.mem_cons_of_mem p (ih k c h)

theorem lookup_hash_eq {commits : CommitTable} (wf : WFTable commits)
    {hsh : String} {c : Commit} (h : List.lookup hsh commits = some c) :
    c.hash = hsh :=
  wf (hsh, c) (lookup_mem commits hsh c h)

/-- In a well-formed table the head summary of a walk from `h` carries the
hash `h` itself. -/
theorem walkHistory_head_hash {commits : CommitTable} (wf : WFTable commits)
    {hsh : String} {fuel : Nat} {s : CommitSummary} {rest : List CommitSummary}
    (h : walkHistory commits (some hsh) fuel = s :: rest) : s.hash = hsh := by
  cases fuel with
  | zero => simp [walkHistory] at h
  | succ fuel =>
    simp only [walkHistory] at h
    cases hl : List.lookup hsh commits with
    | none => rw [hl] at h; simp at h
    | some c =>
      rw [hl] at h
      have hs : s = mkSummary c := (List.cons.injEq _ _ _ _ ▸ h).1.symm
      rw [hs]
      exact lookup_hash_eq wf hl

/-- Successive-entry linkage: looking the `i`-th entry's hash up in the
table yields a commit whose `parent` is the `(i+1)`-th entry's hash. -/
def LinkedHistory (commits : CommitTable) (hist : List CommitSummary) : Prop :=
  ∀ i s₁ s₂, hist.get? i = some s₁ → hist.get? (i + 1) = some s₂ →
    ∃ c, List.lookup s₁.hash commits = some c ∧ c.parent = some s₂.hash

/-- On a well-formed table, the history walk is parent-linked. -/
theorem walkHistory_linked {commits : CommitTable} (wf : WFTable commits) :
    ∀ fuel (oh : Option String), LinkedHistory commits (walkHistory commits oh fuel) := by
  intro fuel
  induction fuel with
  | zero => intro oh i s₁ s₂ h1 h2; simp [walkHistory] at h1
  | succ fuel ih =>
    intro oh
    cases oh with
    | none => intro i s₁ s₂ h1 h2; simp [walkHistory] at h1
    | some hsh =>
      intro i s₁ s₂ h1 h2
      simp only [walkHistory] at h1 h2
      cases hl : List.lookup hsh commits with
      | none => rw [hl] at h1; simp at h1
      | some c =>
        rw [hl] at h1 h2
        cases i with
        | zero =>
          have hs1 : mkSummary c = s₁ := by simpa using h1
          have h2' : (walkHistory commits c.parent fuel).get? 0 = some s₂ := by
            simpa using h2
          cases hp : c.parent with
          | none =>
            rw [hp] at h2'
            cases fuel <;> simp [walkHistory] at h2'
          | some p =>
            rw [hp] at h2'
            cases hw : walkHistory commits (some p) fuel with
            | nil => rw [hw] at h2'; simp at h2'
            | cons s' rest' =>
              rw [hw] at h2'
              have hs2 : s' = s₂ := by simpa using h2'
              refine ⟨c, ?_, ?_⟩
              · rw [← hs1]
                show List.lookup (mkSummary c).hash commits = some c
                have hmk : (mkSummary c).hash = c.hash := rfl
                rw [hmk, lookup_hash_eq wf hl]
                exact hl
              · rw [hp, ← hs2, walkHistory_head_hash wf hw]
        | succ i =>
          have h1' : (walkHistory commits c.parent fuel).get? i = some s₁ := by
            simpa using h1
          have h2' : (walkHistory commits c.parent fuel).get? (i + 1) = some s₂ := by
            simpa using h2
          exact ih c.parent i s₁ s₂ h1' h2'

/-- `createCommit` writes the new commit under its own hash, preserving
table well-formedness. -/
theorem WFTable_insertAssoc {commits : CommitTable} (wf : WFTable commits)
    (k : String) (v : Commit) (hv : v.hash = k) :
    WFTable (insertAssoc commits k v) := by
  intro p hp
  unfold insertAssoc at hp
  cases h : commits.any (fun q => k == q.1) with
  | true =>
    rw [h, cond_true] at hp
    obtain ⟨q, hq, hfq⟩ := List.mem_map.mp hp
    cases hk : (k == q.1) with
    | true => rw [hk, cond_true] at hfq; rw [← hfq]; exact hv
    | false => rw [hk, cond_false] at hfq; rw [← hfq]; exact wf q hq
  | false =>
    rw [h, cond_false] at hp
    cases List.mem_append.mp hp with
    | inl hq => exact wf p hq
    | inr hq =>
      have : p = (k, v) := by simpa using hq
      rw [this]
      exact hv

/-! ## Lemmas about `createCommit` -/

/-- The head hash of the stored repository, if any. -/
def headOf (st : Storage) : Option String := st.repo.bind (fun r => r.head)

/-- The `branches[currentBranch] === head` invariant on a storage state. -/
def branchEqHead (st : Storage) : Prop :=
  ∃ r, st.repo = some r ∧
    List.lookup (truthyGetD st.branch "main") r.branches = some r.head

/-- Explicit description of a successful `createCommit`: the returned hash,
the updated repository record (head and branch pointer advanced), the
updated table (new commit stored under the returned hash, `parent` the old
head), and the untouched branch/config slots. -/
theorem createCommit_spec (st : Storage) (repo : Repo) (d : BookmarkData)
    (m : String) (t : Nat) (h : st.repo = some repo) :
    ∃ st' c,
      createCommit st d m t = .ok (st', hashOfCall d m t) ∧
      st'.repo = some ⟨repo.rInitialized, repo.created, some (hashOfCall d m t),
        insertAssoc repo.branches (truthyGetD st.branch "main")
          (some (hashOfCall d m t))⟩ ∧
      st'.commits = some (insertAssoc (st.commits.getD []) (hashOfCall d m t) c) ∧
      st'.branch = st.branch ∧ st'.config = st.config ∧
      c.hash = hashOfCall d m t ∧ c.parent = repo.head ∧
      c.message = m ∧ c.data = d ∧ c.stats = calculateStats d := by
  unfold createCommit
  rw [h]
  exact ⟨_, _, rfl, rfl, rfl, rfl, rfl, rfl, rfl, rfl, rfl, rfl⟩

/-- After a successful `createCommit` the head is the returned hash, the
branch pointer equals the head, the head is a key of the commit table, and
the stored commit's parent is the previous head. -/
theorem createCommit_post (st : Storage) (repo : Repo) (d : BookmarkData)
    (m : String) (t : Nat) (h : st.repo = some repo) :
    ∃ st' c,
      createCommit st d m t = .ok (st', hashOfCall d m t) ∧
      headOf st' = some (hashOfCall d m t) ∧
      branchEqHead st' ∧
      List.lookup (hashOfCall d m t) (st'.commits.getD []) = some c ∧
      c.parent = repo.head ∧
      st'.repo.isSome ∧ st'.branch = st.branch ∧ st'.config = st.config := by
  obtain ⟨st', c, he, hrepo, hcomm, hbr, hcfg, hc1, hc2, -, -, -⟩ :=
    createCommit_spec st repo d m t h
  refine ⟨st', c, he, ?_, ?_, ?_, hc2, ?_, hbr, hcfg⟩
  · unfold headOf
    rw [hrepo]
    rfl
  · refine ⟨_, hrepo, ?_⟩
    rw [hbr]
    exact lookup_insertAssoc_self _ _ _
  · rw [hcomm]
    show List.lookup (hashOfCall d m t)
      (insertAssoc (st.commits.getD []) (hashOfCall d m t) c) = some c
    exact lookup_insertAssoc_self _ _ _
  · rw [hrepo]
    rfl

/-- Hash of one call of a call list. -/
def callHash (x : BookmarkData × String × Nat) : String :=
  hashOfCall x.1 x.2.1 x.2.2

/-- A sequence of `createCommit` calls on an initialized repository always
succeeds; the hashes are those computed per call, the branch slot never
changes, and after a non-empty sequence the head is the last call's hash
with the branch pointer equal to the head. -/
theorem createCommitN_spec :
    ∀ (calls : List (BookmarkData × String × Nat)) (st : Storage),
      st.repo.isSome →
      ∃ st', createCommitN st calls = .ok (st', calls.map callHash) ∧
        st'.repo.isSome ∧ st'.branch = st.branch ∧
        (calls = [] → st' = st) ∧
        (calls ≠ [] →
          headOf st' = (calls.map callHash).getLast? ∧ branchEqHead st') := by
  intro calls
  induction calls with
  | nil =>
    intro st hst
    exact ⟨st, rfl, hst, rfl, fun _ => rfl, fun hne => absurd rfl hne⟩
  | cons x rest ih =>
    intro st hst
    obtain ⟨repo, hrepo⟩ := Option.isSome_iff_exists.mp hst
    obtain ⟨st₁, c, he, hhead, hbeq, hlook, hpar, hsome₁, hbr₁, hcfg₁⟩ :=
      createCommit_post st repo x.1 x.2.1 x.2.2 hrepo
    obtain ⟨st', hN, hsome', hbr', hnil', hne'⟩ := ih st₁ hsome₁
    refine ⟨st', ?_, hsome', by rw [hbr', hbr₁], fun hcons => by simp at hcons, ?_⟩
    · show createCommitN st (x :: rest) = .ok (st', (x :: rest).map callHash)
      unfold createCommitN
      have hx : createCommit st x.1 x.2.1 x.2.2 = .ok (st₁, callHash x) := by
        obtain ⟨a, b, c'⟩ := x
        exact he
      rw [hx]
      simp only [bind, Except.bind]
      rw [hN]
      rfl
    · intro _
      cases hr : rest with
      | nil =>
        have hst' : st' = st₁ := hnil' hr
        subst hst'
        subst hr
        constructor
        · show headOf st' = ([x].map callHash).getLast?
          have : ([x].map callHash).getLast? = some (callHash x) := rfl
          rw [this]
          obtain ⟨a, b, c'⟩ := x
          exact hhead
        · exact hbeq
      | cons y ys =>
        have hne'' := hne' (by rw [hr]; simp)
        constructor
        · rw [hne''.1, hr]
          simp [List.getLast?_cons_cons]
        · exact hne''.2

/-! ## Round-trip lemma for export / import -/

/-- Importing a state's own export bundle restores the state exactly,
provided all four slots are present and the branch name is truthy (which
holds in every state the system itself produces). -/
theorem roundtrip_eq (st : Storage) (hr : st.repo.isSome) (hc : st.commits.isSome)
    (hb : truthyS st.branch = true) (hg : st.config.isSome)
    (dateStr : String) (now : Nat) :
    importRepository st (exportRepository st dateStr) now = st := by
  obtain ⟨repoF, commF, brF, cfgF⟩ := st
  simp only [Option.isSome_iff_exists] at hr hc hg
  obtain ⟨r, hr'⟩ := hr
  obtain ⟨ct, hc'⟩ := hc
  obtain ⟨cfg, hg'⟩ := hg
  cases brF with
  | none => simp [truthyS] at hb
  | some s =>
    have hs : truthyGetD (some s) "main" = s := by
      unfold truthyGetD
      rw [hb]
      rfl
    have hr2 : repoF = some r := hr'
    have hc2 : commF = some ct := hc'
    have hg2 : cfgF = some cfg := hg'
    subst hr2 hc2 hg2
    simp only [importRepository, exportRepository, hs]
    rfl

/-- `ensureRepository` is the identity when a repository record exists. -/
theorem ensureRepository_exists (st : Storage) (t : Nat) (h : st.repo.isSome = true) :
    ensureRepository st t = st := by
  obtain ⟨r, hr⟩ := Option.isSome_iff_exists.mp h
  unfold ensureRepository
  rw [hr]

/-- After `ensureRepository` a repository record always exists. -/
theorem ensureRepository_isSome (st : Storage) (t : Nat) :
    (ensureRepository st t).repo.isSome = true := by
  cases h : st.repo with
  | none =>
    unfold ensureRepository
    rw [h]
    rfl
  | some r =>
    unfold ensureRepository
    rw [h]
    show st.repo.isSome = true
    rw [h]
    rfl

/-! ## Lemmas about the Change Coalescer -/

/-- The event times of a timeline segment. -/
def evTimes (l : List RawEvent) : List Nat := l.map (fun e => e.1)

/-- A successful commit attempt on a non-empty buffer clears the state and
returns the whole buffer as the batch. -/
theorem processBufferedChanges_nonempty (buf : List PendingChange)
    (fire : Option Nat) (h : buf ≠ []) :
    processBufferedChanges ⟨buf, fire⟩ true = (⟨[], none⟩, some buf) := by
  cases buf with
  | nil => exact absurd rfl h
  | cons x xs => rfl

/-- An empty buffer produces no commit and leaves the state untouched. -/
theorem processBufferedChanges_empty (st : CoalescerState) (commitOk : Bool)
    (h : st.pendingChanges = []) :
    processBufferedChanges st commitOk = (st, none) := by
  obtain ⟨p, f⟩ := st
  have hp : p = [] := h
  subst hp
  rfl

/-- A failed commit attempt produces no commit and leaves the whole
coalescer state (in particular the pending buffer) untouched. -/
theorem processBufferedChanges_fail (st : CoalescerState) :
    processBufferedChanges st false = (st, none) := by
  obtain ⟨p, f⟩ := st
  cases p <;> rfl

/-- While the timer is pending with a non-empty buffer, running the
coalescer agrees with the reference grouping. -/
theorem runEvents_go (delay : Nat) :
    ∀ (evs : List RawEvent) (buf : List PendingChange) (lastT : Nat),
      buf ≠ [] →
      runEvents delay ⟨buf, some (lastT + delay)⟩ evs = coalesceGo delay buf lastT evs := by
  intro evs
  induction evs with
  | nil =>
    intro buf lastT hbuf
    simp only [runEvents, processBufferedChanges_nonempty buf _ hbuf]
    rfl
  | cons e rest ih =>
    intro buf lastT hbuf
    obtain ⟨t, ev, d⟩ := e
    simp only [runEvents]
    by_cases hlt : lastT + delay < t
    · rw [if_pos hlt, processBufferedChanges_nonempty buf _ hbuf]
      unfold coalesceGo
      rw [if_pos hlt]
      have hh : handleBookmarkChange ⟨[], none⟩ ev d t delay =
          ⟨[toPending (t, ev, d)], some (t + delay)⟩ := rfl
      show (some buf).toList ++
          runEvents delay (handleBookmarkChange ⟨[], none⟩ ev d t delay) rest = _
      rw [hh, ih [toPending (t, ev, d)] t (by simp)]
      rfl
    · rw [if_neg hlt]
      unfold coalesceGo
      rw [if_neg hlt]
      have hh : handleBookmarkChange ⟨buf, some (lastT + delay)⟩ ev d t delay =
          ⟨buf ++ [toPending (t, ev, d)], some (t + delay)⟩ := rfl
      rw [hh, ih (buf ++ [toPending (t, ev, d)]) t (by simp)]

/-- From the idle state, the coalescer run equals the reference grouping. -/
theorem runEvents_eq_coalesce (delay : Nat) (evs : List RawEvent) :
    runEvents delay ⟨[], none⟩ evs = coalesce delay evs := by
  cases evs with
  | nil => rfl
  | cons e rest =>
    obtain ⟨t, ev, d⟩ := e
    show runEvents delay (handleBookmarkChange ⟨[], none⟩ ev d t delay) rest =
      coalesceGo delay [toPending (t, ev, d)] t rest
    have hh : handleBookmarkChange ⟨[], none⟩ ev d t delay =
        ⟨[toPending (t, ev, d)], some (t + delay)⟩ := rfl
    rw [hh, runEvents_go delay rest [toPending (t, ev, d)] t (by simp)]

/-- Every event of the segment arrives less than `delay` after its
predecessor (boolean check). -/
def gapsLtB (delay : Nat) : List RawEvent → Bool
  | x :: y :: l => (decide (y.1 < x.1 + delay)) && gapsLtB delay (y :: l)
  | _ => true

/-- A burst: a non-empty run of events in which every event arrives less
than the quiet period after its predecessor. -/
def burstOk (delay : Nat) (b : List RawEvent) : Prop :=
  b ≠ [] ∧ gapsLtB delay b = true

instance (delay : Nat) (b : List RawEvent) : Decidable (burstOk delay b) :=
  inferInstanceAs (Decidable (b ≠ [] ∧ gapsLtB delay b = true))

/-- Consecutive bursts are separated by more than the quiet period
(from the last event of one burst to the first event of the next). -/
def sepB (delay : Nat) : List (List RawEvent) → Bool
  | b₁ :: b₂ :: bs =>
    (decide ((evTimes b₁).getLastD 0 + delay < (evTimes b₂).headD 0)) &&
      sepB delay (b₂ :: bs)
  | _ => true

/-- Propositional form of the separation check. -/
def burstsSeparated (delay : Nat) (bs : List (List RawEvent)) : Prop :=
  sepB delay bs = true

instance (delay : Nat) (bs : List (List RawEvent)) :
    Decidable (burstsSeparated delay bs) :=
  inferInstanceAs (Decidable (sepB delay bs = true))

theorem gapsLtB_chain (delay : Nat) :
    ∀ (x : RawEvent) (l : List RawEvent), gapsLtB delay (x :: l) = true →
      List.Chain (fun a b => b.1 < a.1 + delay) x l := by
  intro x l
  induction l generalizing x with
  | nil => intro _; exact List.Chain.nil
  | cons y l ih =>
    intro h
    unfold gapsLtB at h
    rw [Bool.and_eq_true] at h
    exact List.Chain.cons (of_decide_eq_true h.1) (ih y h.2)

theorem coalesceGo_burst (delay : Nat) :
    ∀ (b rest : List RawEvent) (buf : List PendingChange) (lastT : Nat),
      List.Chain (fun x y => y < x + delay) lastT (evTimes b) →
      coalesceGo delay buf lastT (b ++ rest) =
        coalesceGo delay (buf ++ b.map toPending) ((evTimes b).getLastD lastT) rest := by
  intro b
  induction b with
  | nil =>
    intro rest buf lastT _
    simp [evTimes]
  | cons e b' ih =>
    intro rest buf lastT hchain
    have h1 : e.1 < lastT + delay := (List.chain_cons.mp hchain).1
    have h2 : List.Chain (fun x y => y < x + delay) e.1 (evTimes b') :=
      (List.chain_cons.mp hchain).2
    have hl : (evTimes (e :: b')).getLastD lastT = (evTimes b').getLastD e.1 :=
      List.getLastD_cons lastT e.1 (evTimes b')
    have ha : buf ++ [toPending e] ++ b'.map toPending = buf ++ (e :: b').map toPending := by
      simp
    show coalesceGo delay buf lastT (e :: (b' ++ rest)) = _
    conv_lhs => rw [coalesceGo]
    rw [if_neg (by omega)]
    rw [ih rest (buf ++ [toPending e]) e.1 h2, hl, ha]

/-- The reference grouping of a timeline that decomposes into
well-separated bursts is exactly the burst list. -/
theorem coalesce_bursts (delay : Nat) :
    ∀ (bursts : List (List RawEvent)),
      (∀ b ∈ bursts, burstOk delay b) →
      burstsSeparated delay bursts →
      coalesce delay bursts.flatten = bursts.map (fun b => b.map toPending) := by
  intro bursts
  induction bursts with
  | nil => intro _ _; rfl
  | cons b bs ih =>
    intro hok hsep
    obtain ⟨hb0, hbchain⟩ := hok b (List.mem_cons_self b bs)
    cases hbe : b with
    | nil => exact absurd hbe hb0
    | cons e b' =>
      subst hbe
      have hchain : List.Chain (fun x y => y < x + delay) e.1 (evTimes b') := by
        have hc : List.Chain (fun a b => b.1 < a.1 + delay) e b' :=
          gapsLtB_chain delay e b' hbchain
        exact (List.chain_map (fun x : RawEvent => x.1)).mpr hc
      show coalesce delay ((e :: b') ++ bs.flatten) = _
      have hjoin : (e :: b') ++ bs.flatten = e :: (b' ++ bs.flatten) := rfl
      rw [hjoin]
      show coalesceGo delay [toPending e] e.1 (b' ++ bs.flatten) = _
      rw [coalesceGo_burst delay b' bs.flatten [toPending e] e.1 hchain]
      have hmap : [toPending e] ++ b'.map toPending = (e :: b').map toPending := rfl
      rw [hmap]
      cases hbs : bs with
      | nil =>
        subst hbs
        show coalesceGo delay ((e :: b').map toPending) _ [] = [(e :: b').map toPending]
        rfl
      | cons b₂ bs' =>
        subst hbs
        obtain ⟨hb20, -⟩ := hok b₂ (List.mem_cons_of_mem _ (List.mem_cons_self b₂ bs'))
        cases hb2e : b₂ with
        | nil => exact absurd hb2e hb20
        | cons e₂ b₂' =>
          subst hb2e
          have hsepParts : ((evTimes (e :: b')).getLastD 0 + delay <
              (evTimes (e₂ :: b₂')).headD 0) ∧
              sepB delay ((e₂ :: b₂') :: bs') = true := by
            unfold burstsSeparated sepB at hsep
            rw [Bool.and_eq_true] at hsep
            exact ⟨of_decide_eq_true hsep.1, hsep.2⟩
          have hsep1 := hsepParts.1
          have hL : (evTimes (e :: b')).getLastD 0 = (evTimes b').getLastD e.1 :=
            List.getLastD_cons 0 e.1 (evTimes b')
          have hH : (evTimes (e₂ :: b₂')).headD 0 = e₂.1 := rfl
          rw [hL, hH] at hsep1
          have hrest : coalesceGo delay [toPending e₂] e₂.1 (b₂' ++ bs'.flatten) =
              ((e₂ :: b₂') :: bs').map (fun b => b.map toPending) := by
            have hih := ih (fun b hb => hok b (List.mem_cons_of_mem _ hb))
              hsepParts.2
            exact hih
          show coalesceGo delay ((e :: b').map toPending) ((evTimes b').getLastD e.1)
            ((e₂ :: b₂') ++ bs'.flatten) = _
          have hjoin2 : (e₂ :: b₂') ++ bs'.flatten = e₂ :: (b₂' ++ bs'.flatten) := rfl
          rw [hjoin2]
          conv_lhs => rw [coalesceGo]
          rw [if_pos hsep1, hrest]
          rfl

/-! ## Concrete example values used by witnesses and counterexamples -/

/-- A freshly initialized repository record. -/
def exRepo : Repo := ⟨true, 0, none, [("main", none)]⟩

/-- A freshly initialized storage state. -/
def exStorage : Storage := ⟨some exRepo, some [], some "main", some defaultConfig⟩

/-- A bundle whose `commits` field is missing. -/
def exBadBundle : Bundle :=
  ⟨some exRepo, none, some "main", some defaultConfig, "2025-01-01", some "1.0.0"⟩

/-- One buffered change. -/
def exChange : PendingChange := ⟨0, "created", ⟨"1", some "T", none⟩⟩

/-- A coalescer state holding one buffered change with a pending timer. -/
def exCoalescer : CoalescerState := ⟨[exChange], some 1000⟩

/-- Event payload with just an id. -/
def exD (i : String) : Details := ⟨i, none, none⟩

/-- The spec's three-event burst at 0 ms, 200 ms and 900 ms. -/
def exBurstA : List RawEvent :=
  [(0, "created", exD "1"), (200, "moved", exD "2"), (900, "changed", exD "3")]

/-- The spec's separated events at 0 ms and 1500 ms, as two bursts. -/
def exBurstB1 : List RawEvent := [(0, "created", exD "1")]

/-- Second burst of the separated example. -/
def exBurstB2 : List RawEvent := [(1500, "moved", exD "2")]

/-- Two `createCommit` calls with identical snapshot, message and
`Date.now()` value (same-millisecond duplicate). -/
def twoCallsSame : Except String (Storage × List String) :=
  createCommitN exStorage [(BChildren.absent, "m", 5), (BChildren.absent, "m", 5)]

/-- A node with neither a target reference nor children. -/
def exNodeBare : BNode := BNode.mk none BChildren.absent

/-- A commit stored under key `"A"` whose own hash field is `"X"`. -/
def cxCommitA : Commit :=
  ⟨"X", "m1", ⟨"n", "e", 0⟩, ⟨"n", "e", 0⟩, some "B", "X_tree", BChildren.absent, ⟨0, 0, 0⟩⟩

/-- A commit stored under key `"B"` whose own hash field is `"Y"`. -/
def cxCommitB : Commit :=
  ⟨"Y", "m2", ⟨"n", "e", 0⟩, ⟨"n", "e", 0⟩, none, "Y_tree", BChildren.absent, ⟨0, 0, 0⟩⟩

/-- A commit table whose stored hash fields disagree with its keys. -/
def cxTable : CommitTable := [("A", cxCommitA), ("B", cxCommitB)]

/-- Storage holding the mismatched table with head `"A"`. -/
def cxStorage : Storage :=
  ⟨some ⟨true, 0, some "A", [("main", some "A")]⟩, some cxTable, some "main",
    some defaultConfig⟩

/-- A commit stored under its own hash `"A"`. -/
def wfCommit : Commit :=
  ⟨"A", "m", ⟨"n", "e", 0⟩, ⟨"n", "e", 0⟩, none, "t", BChildren.absent, ⟨0, 0, 0⟩⟩

/-- A commit with hash field `"B"`. -/
def wfCommitB : Commit :=
  ⟨"B", "m2", ⟨"n", "e", 0⟩, ⟨"n", "e", 0⟩, some "A", "t2", BChildren.absent, ⟨0, 0, 0⟩⟩

/-- A well-formed one-commit table. -/
def wfTable : CommitTable := [("A", wfCommit)]

/-- Storage holding the well-formed table with head `"A"`. -/
def wfStorage : Storage :=
  ⟨some ⟨true, 0, some "A", [("main", some "A")]⟩, some wfTable, some "main",
    some defaultConfig⟩

/-! ## Claims -/

/-- C1: every bundle failing validation — in particular any bundle with the
`commits` field missing — is rejected by the import flow with a validation
error, the prior storage state (repository record, commit table, branch
pointer, configuration) is left fully intact, and the reset-before-import
never runs when validation fails. -/
theorem c1_import_validation_rejects_intact :
    (∀ data : Bundle, data.commits = none → validateBackupData data = false) ∧
    (∀ (st : Storage) (data : Bundle) (now : Nat),
      validateBackupData data = false →
      handleFileImport st data now = (st, false)) := by
  constructor
  · intro data h
    unfold validateBackupData
    rw [h]
    simp
  · intro st data now h
    unfold handleFileImport
    rw [h]
    simp

/-- C1 witness: the fresh state survives an import attempt with a bundle
missing `commits`. -/
theorem c1_witness_missing_commits :
    exBadBundle.commits = none ∧
    validateBackupData exBadBundle = false ∧
    handleFileImport exStorage exBadBundle 0 = (exStorage, false) :=
  ⟨rfl, c1_import_validation_rejects_intact.1 exBadBundle rfl,
    c1_import_validation_rejects_intact.2 exStorage exBadBundle 0
      (c1_import_validation_rejects_intact.1 exBadBundle rfl)⟩

/-- C2 counterexample: when `createCommit` fails inside
`processBufferedChanges`, the pending buffer is NOT cleared — the clearing
statements sit after the commit call inside the `try`, so the thrown error
skips them. -/
theorem c2_counterexample_buffer_not_cleared :
    (processBufferedChanges exCoalescer false).1.pendingChanges ≠ [] := by decide

/-- C2 amended: a failed commit leaves the coalescer state (including the
pending buffer) unchanged — the error is caught, so future cycles are not
crashed — and the next event restarts the debounce, so the following
successful cycle commits a batch covering the retained changes plus the
new one. -/
theorem c2_amended_failure_retains_buffer :
    (∀ st : CoalescerState, processBufferedChanges st false = (st, none)) ∧
    (∀ (st : CoalescerState) (ev : String) (d : Details) (t delay : Nat),
      processBufferedChanges
        (handleBookmarkChange (processBufferedChanges st false).1 ev d t delay) true =
        (⟨[], none⟩, some (st.pendingChanges ++ [⟨t, ev, d⟩]))) := by
  constructor
  · exact processBufferedChanges_fail
  · intro st ev d t delay
    rw [processBufferedChanges_fail st]
    show processBufferedChanges ⟨st.pendingChanges ++ [⟨t, ev, d⟩], some (t + delay)⟩
      true = _
    exact processBufferedChanges_nonempty _ _ (by simp)

/-- C3: a timeline decomposing into bursts (consecutive gaps shorter than
the quiet period inside a burst, gaps longer than the quiet period between
bursts) produces exactly one commit per burst, covering the whole burst,
with the generated message derived from all the burst's buffered events;
and an empty buffer never produces a commit. -/
theorem c3_debounce_one_commit_per_burst :
    (∀ (delay : Nat) (bursts : List (List RawEvent)),
      (∀ b ∈ bursts, burstOk delay b) → burstsSeparated delay bursts →
      runEvents delay ⟨[], none⟩ bursts.flatten =
          bursts.map (fun b => b.map toPending) ∧
        (runEvents delay ⟨[], none⟩ bursts.flatten).map generateCommitMessage =
          bursts.map (fun b => generateCommitMessage (b.map toPending))) ∧
    (∀ (st : CoalescerState) (commitOk : Bool), st.pendingChanges = [] →
      processBufferedChanges st commitOk = (st, none)) := by
  constructor
  · intro delay bursts hok hsep
    have h := coalesce_bursts delay bursts hok hsep
    rw [runEvents_eq_coalesce delay bursts.flatten, h]
    constructor
    · rfl
    · rw [List.map_map]
      rfl
  · exact processBufferedChanges_empty

/-- C3 witness: the spec's examples — events at 0/200/900 ms with a
1000 ms quiet period give exactly one commit covering all three, events at
0 and 1500 ms give two commits, and a fire on an empty buffer commits
nothing. -/
theorem c3_witness_spec_examples :
    runEvents 1000 ⟨[], none⟩ ([exBurstA].flatten) =
        [exBurstA].map (fun b => b.map toPending) ∧
    runEvents 1000 ⟨[], none⟩ ([exBurstB1, exBurstB2].flatten) =
        [exBurstB1, exBurstB2].map (fun b => b.map toPending) ∧
    processBufferedChanges ⟨[], some 1000⟩ true = (⟨[], some 1000⟩, none) :=
  ⟨(c3_debounce_one_commit_per_burst.1 1000 [exBurstA] (by decide) (by decide)).1,
   (c3_debounce_one_commit_per_burst.1 1000 [exBurstB1, exBurstB2]
      (by decide) (by decide)).1,
   c3_debounce_one_commit_per_burst.2 ⟨[], some 1000⟩ true rfl⟩

/-- C4: after every successful `createCommit`, the head equals the new
commit's hash, the current branch's pointer equals the head, the head is a
key of the commit table, and the stored commit's parent is the previous
head; iterating N calls always succeeds, and after each non-empty prefix
the head is that prefix's last hash with the branch pointer tracking it. -/
theorem c4_head_branch_parent_after_commit :
    (∀ (st : Storage) (repo : Repo) (d : BookmarkData) (m : String) (t : Nat),
      st.repo = some repo →
      ∃ st' c,
        createCommit st d m t = Except.ok (st', hashOfCall d m t) ∧
        headOf st' = some (hashOfCall d m t) ∧
        branchEqHead st' ∧
        List.lookup (hashOfCall d m t) (st'.commits.getD []) = some c ∧
        c.parent = repo.head) ∧
    (∀ (calls : List (BookmarkData × String × Nat)) (st : Storage),
      st.repo.isSome →
      ∃ st', createCommitN st calls = Except.ok (st', calls.map callHash) ∧
        (calls ≠ [] →
          headOf st' = (calls.map callHash).getLast? ∧ branchEqHead st')) := by
  constructor
  · intro st repo d m t h
    obtain ⟨st', c, he, hh, hb, hl, hp, -, -, -⟩ := createCommit_post st repo d m t h
    exact ⟨st', c, he, hh, hb, hl, hp⟩
  · intro calls st h
    obtain ⟨st', h1, -, -, -, h5⟩ := createCommitN_spec calls st h
    exact ⟨st', h1, h5⟩

/-- C4 witness: one concrete commit on a fresh repository and a two-call
sequence. -/
theorem c4_witness_fresh_repository :
    (∃ st' c,
      createCommit exStorage BChildren.absent "snap" 0 =
        Except.ok (st', hashOfCall BChildren.absent "snap" 0) ∧
      headOf st' = some (hashOfCall BChildren.absent "snap" 0) ∧
      branchEqHead st' ∧
      List.lookup (hashOfCall BChildren.absent "snap" 0) (st'.commits.getD []) =
        some c ∧
      c.parent = exRepo.head) ∧
    (∃ st', createCommitN exStorage
        [(BChildren.absent, "a", 0), (BChildren.absent, "b", 1)] =
        Except.ok (st',
          [(BChildren.absent, "a", 0), (BChildren.absent, "b", 1)].map callHash) ∧
      ([(BChildren.absent, "a", 0), (BChildren.absent, "b", 1)] ≠ [] →
        headOf st' =
          ([(BChildren.absent, "a", 0), (BChildren.absent, "b", 1)].map
            callHash).getLast? ∧
        branchEqHead st')) :=
  ⟨c4_head_branch_parent_after_commit.1 exStorage exRepo BChildren.absent "snap" 0 rfl,
   c4_head_branch_parent_after_commit.2
     [(BChildren.absent, "a", 0), (BChildren.absent, "b", 1)] exStorage rfl⟩

/-- C5 counterexample: two `createCommit` calls with the exact same
snapshot, message and `Date.now()` millisecond generate the SAME hash (the
returned hash list repeats one value), and the second call overwrites the
first — the commit table ends with a single entry, not two. -/
theorem c5_counterexample_same_millisecond :
    twoCallsSame.toOption.map (fun p => p.2) =
        some [hashOfCall BChildren.absent "m" 5, hashOfCall BChildren.absent "m" 5] ∧
    twoCallsSame.toOption.map (fun p => (p.1.commits.getD []).length) = some 1 := by
  decide

/-- C5 amended: the hashes of two calls differ whenever their `Date.now()`
values differ (the time component alone separates them, whatever the
content), and in that case the second commit does not overwrite the first:
the first commit is still stored unchanged after the second call. -/
theorem c5_amended_distinct_times_distinct_hashes :
    (∀ (s₁ s₂ : String) (t₁ t₂ : Nat), t₁ ≠ t₂ →
      generateHash s₁ t₁ ≠ generateHash s₂ t₂) ∧
    (∀ (st : Storage) (repo : Repo) (d₁ : BookmarkData) (m₁ : String) (t₁ : Nat)
        (d₂ : BookmarkData) (m₂ : String) (t₂ : Nat),
      st.repo = some repo → t₁ ≠ t₂ →
      ∃ st₁ st₂ c₁,
        createCommit st d₁ m₁ t₁ = Except.ok (st₁, hashOfCall d₁ m₁ t₁) ∧
        createCommit st₁ d₂ m₂ t₂ = Except.ok (st₂, hashOfCall d₂ m₂ t₂) ∧
        hashOfCall d₁ m₁ t₁ ≠ hashOfCall d₂ m₂ t₂ ∧
        List.lookup (hashOfCall d₁ m₁ t₁) (st₁.commits.getD []) = some c₁ ∧
        List.lookup (hashOfCall d₁ m₁ t₁) (st₂.commits.getD []) = some c₁) := by
  constructor
  · intro s₁ s₂ t₁ t₂ hne heq
    exact hne (generateHash_time_inj s₁ s₂ t₁ t₂ heq)
  · intro st repo d₁ m₁ t₁ d₂ m₂ t₂ hrepo hne
    obtain ⟨st₁, c₁, he₁, hrepo₁, hcomm₁, hbr₁, hcfg₁, hc₁hash, hc₁par, -, -, -⟩ :=
      createCommit_spec st repo d₁ m₁ t₁ hrepo
    obtain ⟨st₂, c₂, he₂, hrepo₂, hcomm₂, -, -, -, -, -, -, -⟩ :=
      createCommit_spec st₁ _ d₂ m₂ t₂ hrepo₁
    have hhne : hashOfCall d₁ m₁ t₁ ≠ hashOfCall d₂ m₂ t₂ := by
      unfold hashOfCall
      intro h
      exact hne (generateHash_time_inj _ _ _ _ h)
    refine ⟨st₁, st₂, c₁, he₁, he₂, hhne, ?_, ?_⟩
    · rw [hcomm₁]
      show List.lookup (hashOfCall d₁ m₁ t₁)
        (insertAssoc (st.commits.getD []) (hashOfCall d₁ m₁ t₁) c₁) = some c₁
      exact lookup_insertAssoc_self _ _ _
    · rw [hcomm₂]
      show List.lookup (hashOfCall d₁ m₁ t₁)
        (insertAssoc (st₁.commits.getD []) (hashOfCall d₂ m₂ t₂) c₂) = some c₁
      rw [lookup_insertAssoc_ne _ _ _ _ hhne, hcomm₁]
      show List.lookup (hashOfCall d₁ m₁ t₁)
        (insertAssoc (st.commits.getD []) (hashOfCall d₁ m₁ t₁) c₁) = some c₁
      exact lookup_insertAssoc_self _ _ _

/-- C5 amended witness: concrete distinct-millisecond calls. -/
theorem c5_amended_witness_times01 :
    generateHash "same input" 0 ≠ generateHash "same input" 1 ∧
    (∃ st₁ st₂ c₁,
      createCommit exStorage BChildren.absent "m" 0 =
        Except.ok (st₁, hashOfCall BChildren.absent "m" 0) ∧
      createCommit st₁ BChildren.absent "m" 1 =
        Except.ok (st₂, hashOfCall BChildren.absent "m" 1) ∧
      hashOfCall BChildren.absent "m" 0 ≠ hashOfCall BChildren.absent "m" 1 ∧
      List.lookup (hashOfCall BChildren.absent "m" 0) (st₁.commits.getD []) =
        some c₁ ∧
      List.lookup (hashOfCall BChildren.absent "m" 0) (st₂.commits.getD []) =
        some c₁) :=
  ⟨c5_amended_distinct_times_distinct_hashes.1 "same input" "same input" 0 1
      (by decide),
   c5_amended_distinct_times_distinct_hashes.2 exStorage exRepo
      BChildren.absent "m" 0 BChildren.absent "m" 1 rfl (by decide)⟩

/-- C6 counterexample: a node with neither a target reference nor children
does not contribute zero — the `else` branch of the classifier counts it as
one container. -/
theorem c6_counterexample_bare_node_counts_one :
    calculateStats (BChildren.arr (BForest.cons exNodeBare BForest.nil)) = ⟨0, 1, 1⟩ ∧
    (calculateStats (BChildren.arr (BForest.cons exNodeBare BForest.nil))).totalFolders
      ≠ 0 := by
  decide

/-- C6 amended: the Stat Engine recursively classifies every node — a node
with a truthy target reference counts as exactly one leaf, every other
node (including one with neither reference nor children) counts as exactly
one container, a children array is visited recursively with the container
counted once regardless of child count, and a non-array at any level
contributes zero rather than throwing. -/
theorem c6_amended_stat_engine_classification :
    ∀ d : BookmarkData,
      calculateStats d = ⟨leafCountC d, folderCountC d, leafCountC d + folderCountC d⟩ :=
  calculateStats_eq

/-- C7 counterexample: on a repository state whose commit table does not
store commits under their own hash field, the returned entries' hashes do
not follow the parent links — the claim's successive-entry linkage fails. -/
theorem c7_counterexample_mismatched_table :
    ¬ LinkedHistory cxTable (getCommitHistory cxStorage 2) := by
  intro h
  have h0 : (getCommitHistory cxStorage 2).get? 0 = some (mkSummary cxCommitA) := by
    decide
  have h1 : (getCommitHistory cxStorage 2).get? 1 = some (mkSummary cxCommitB) := by
    decide
  obtain ⟨c, hc, -⟩ := h 0 (mkSummary cxCommitA) (mkSummary cxCommitB) h0 h1
  rw [show (mkSummary cxCommitA).hash = "X" from rfl] at hc
  rw [show List.lookup "X" cxTable = (none : Option Commit) from rfl] at hc
  exact Option.noConfusion hc

/-- C7 amended: on commit tables that store every commit under its own
hash field (as every table `createCommit` builds does — last conjunct),
`getCommitHistory` walks from head with its entry count
`min limit chainLength` (the bounded walk is the `limit`-prefix of any
longer-budget walk), every summary's `shortHash` is the first 8 characters
of its hash, a hash missing from the table ends the walk without error,
and successive entries follow the parent links. -/
theorem c7_amended_history_walk :
    (∀ (commits : CommitTable) (oh : Option String) (limit fuel : Nat),
      limit ≤ fuel →
      walkHistory commits oh limit = (walkHistory commits oh fuel).take limit ∧
      (walkHistory commits oh limit).length =
        min limit (walkHistory commits oh fuel).length) ∧
    (∀ (st : Storage) (limit : Nat) (s : CommitSummary),
      s ∈ getCommitHistory st limit → s.shortHash = jsSubstring8 s.hash) ∧
    (∀ (commits : CommitTable) (hsh : String) (fuel : Nat),
      List.lookup hsh commits = none →
      walkHistory commits (some hsh) (fuel + 1) = []) ∧
    (∀ (commits : CommitTable) (st : Storage) (limit : Nat),
      WFTable commits → st.commits = some commits →
      LinkedHistory commits (getCommitHistory st limit)) ∧
    (∀ (commits : CommitTable) (k : String) (v : Commit),
      WFTable commits → v.hash = k → WFTable (insertAssoc commits k v)) := by
  refine ⟨?_, ?_, ?_, ?_, ?_⟩
  · intro commits oh limit fuel hle
    constructor
    · exact walkHistory_take commits limit fuel oh hle
    · rw [walkHistory_take commits limit fuel oh hle]
      exact List.length_take limit _
  · intro st limit s hs
    unfold getCommitHistory at hs
    cases hrepo : st.repo with
    | none =>
      rw [hrepo] at hs
      exact absurd hs (List.not_mem_nil s)
    | some r =>
      rw [hrepo] at hs
      have hs1 : s ∈ (match r.head with
        | none => []
        | some h => walkHistory (st.commits.getD []) (some h) limit) := hs
      cases hh : r.head with
      | none =>
        rw [hh] at hs1
        exact absurd hs1 (List.not_mem_nil s)
      | some hd =>
        rw [hh] at hs1
        have hs2 : s ∈ walkHistory (st.commits.getD []) (some hd) limit := hs1
        exact walkHistory_shortHash _ limit (some hd) s hs2
  · exact walkHistory_broken
  · intro commits st limit hwf hcomm
    unfold getCommitHistory
    rw [hcomm]
    cases hrepo : st.repo with
    | none =>
      intro i s₁ s₂ h1 h2
      have h1' : ([] : List CommitSummary).get? i = some s₁ := h1
      simp at h1'
    | some r =>
      show LinkedHistory commits (match r.head with
        | none => []
        | some h => walkHistory ((some commits).getD []) (some h) limit)
      cases hh : r.head with
      | none =>
        intro i s₁ s₂ h1 h2
        have h1' : ([] : List CommitSummary).get? i = some s₁ := h1
        simp at h1'
      | some hd =>
        have hlink := walkHistory_linked hwf limit (some hd)
        intro i s₁ s₂ h1 h2
        have h1' : (walkHistory commits (some hd) limit).get? i = some s₁ := h1
        have h2' : (walkHistory commits (some hd) limit).get? (i + 1) = some s₂ := h2
        exact hlink i s₁ s₂ h1' h2'
  · intro commits k v hwf hv
    exact WFTable_insertAssoc hwf k v hv

/-- C7 witness: the well-formed one-commit table. -/
theorem c7_witness_wf_table :
    (walkHistory wfTable (some "A") 1 = (walkHistory wfTable (some "A") 5).take 1 ∧
      (walkHistory wfTable (some "A") 1).length =
        min 1 (walkHistory wfTable (some "A") 5).length) ∧
    (mkSummary wfCommit).shortHash = jsSubstring8 (mkSummary wfCommit).hash ∧
    walkHistory wfTable (some "Z") 3 = [] ∧
    LinkedHistory wfTable (getCommitHistory wfStorage 10) ∧
    WFTable (insertAssoc wfTable "B" wfCommitB) :=
  ⟨c7_amended_history_walk.1 wfTable (some "A") 1 5 (by decide),
   c7_amended_history_walk.2.1 wfStorage 10 (mkSummary wfCommit) (by decide),
   c7_amended_history_walk.2.2.1 wfTable "Z" 2 rfl,
   c7_amended_history_walk.2.2.2.1 wfTable wfStorage 10 (by decide) rfl,
   c7_amended_history_walk.2.2.2.2 wfTable "B" wfCommitB (by decide) rfl⟩

/-- C8: `ensureRepository` (the storage effect of `initialize`) creates
exactly the default repository — `head = null`, empty commit table, branch
map `main → null`, branch `"main"`, default configuration — when no
repository record exists, is the identity when one exists, and is
idempotent both at the storage level and through the `initialized` flag. -/
theorem c8_ensure_repository_idempotent :
    (∀ (st : Storage) (t : Nat), st.repo = none →
      ensureRepository st t =
        ⟨some ⟨true, t, none, [("main", none)]⟩, some [], some "main",
          some defaultConfig⟩) ∧
    (∀ (st : Storage) (t : Nat), st.repo.isSome → ensureRepository st t = st) ∧
    (∀ (st : Storage) (t₁ t₂ : Nat),
      ensureRepository (ensureRepository st t₁) t₂ = ensureRepository st t₁) ∧
    (∀ (g : GMState) (t₁ t₂ : Nat),
      initializeGM (initializeGM g t₁) t₂ = initializeGM g t₁) := by
  refine ⟨?_, ?_, ?_, ?_⟩
  · intro st t h
    unfold ensureRepository
    rw [h]
  · intro st t h
    obtain ⟨r, hr⟩ := Option.isSome_iff_exists.mp h
    unfold ensureRepository
    rw [hr]
  · intro st t₁ t₂
    exact ensureRepository_exists (ensureRepository st t₁) t₂
      (ensureRepository_isSome st t₁)
  · intro g t₁ t₂
    cases hf : g.gmFlag with
    | true => simp [initializeGM, hf]
    | false => simp [initializeGM, hf]

/-- C8 witness: creation from an empty storage and a no-op on an existing
repository. -/
theorem c8_witness_empty_and_existing :
    ensureRepository ⟨none, none, none, none⟩ 7 =
        ⟨some ⟨true, 7, none, [("main", none)]⟩, some [], some "main",
          some defaultConfig⟩ ∧
    ensureRepository exStorage 7 = exStorage :=
  ⟨c8_ensure_repository_idempotent.1 ⟨none, none, none, none⟩ 7 rfl,
   c8_ensure_repository_idempotent.2.1 exStorage 7 rfl⟩

/-- C9: for every state whose four slots are present with a truthy branch
name (true of every reachable repository state), importing the state's own
export bundle reproduces identical repository statistics and an identical
commit history at every limit. -/
theorem c9_roundtrip_preserves_stats_history :
    ∀ (st : Storage) (dateStr : String) (now : Nat),
      st.repo.isSome → st.commits.isSome → truthyS st.branch = true →
      st.config.isSome →
      getRepositoryStats (importRepository st (exportRepository st dateStr) now) =
          getRepositoryStats st ∧
      ∀ limit,
        getCommitHistory (importRepository st (exportRepository st dateStr) now)
          limit = getCommitHistory st limit := by
  intro st d n h1 h2 h3 h4
  rw [roundtrip_eq st h1 h2 h3 h4 d n]
  exact ⟨rfl, fun _ => rfl⟩

/-- C9 witness: round trip of the one-commit state. -/
theorem c9_witness_one_commit_state :
    getRepositoryStats
        (importRepository wfStorage (exportRepository wfStorage "2025-01-01") 99) =
      getRepositoryStats wfStorage ∧
    ∀ limit,
      getCommitHistory
          (importRepository wfStorage (exportRepository wfStorage "2025-01-01") 99)
        limit = getCommitHistory wfStorage limit :=
  c9_roundtrip_preserves_stats_history wfStorage "2025-01-01" 99 rfl rfl
    (by decide) rfl

/-- C10: every `storeChangeHistory` call prepends the new entry (newest
first) and writes back the first 100 entries, so the persisted log never
exceeds 100 entries. -/
theorem c10_change_history_bounded_newest_first :
    ∀ (history : List HistoryEntry) (changes : List PendingChange) (now : Nat),
      storeChangeHistory history changes now =
        ((⟨now, changes, generateCommitMessage changes⟩ : HistoryEntry) ::
          history).take 100 ∧
      (storeChangeHistory history changes now).length ≤ 100 ∧
      (storeChangeHistory history changes now).head? =
        some ⟨now, changes, generateCommitMessage changes⟩ := by
  intro history changes now
  show (if ((⟨now, changes, generateCommitMessage changes⟩ : HistoryEntry) ::
        history).length > 100 then
      ((⟨now, changes, generateCommitMessage changes⟩ : HistoryEntry) ::
        history).take 100
    else (⟨now, changes, generateCommitMessage changes⟩ : HistoryEntry) ::
      history) = _ ∧ _ ∧ _
  by_cases h : ((⟨now, changes, generateCommitMessage changes⟩ : HistoryEntry) ::
      history).length > 100
  · rw [if_pos h]
    refine ⟨rfl, ?_, ?_⟩
    · show (storeChangeHistory history changes now).length ≤ 100
      unfold storeChangeHistory
      rw [if_pos h]
      have := List.length_take 100
        ((⟨now, changes, generateCommitMessage changes⟩ : HistoryEntry) :: history)
      omega
    · show (storeChangeHistory history changes now).head? = _
      unfold storeChangeHistory
      rw [if_pos h]
      rfl
  · rw [if_neg h]
    refine ⟨?_, ?_, ?_⟩
    · rw [List.take_of_length_le (by omega)]
    · show (storeChangeHistory history changes now).length ≤ 100
      unfold storeChangeHistory
      rw [if_neg h]
      omega
    · show (storeChangeHistory history changes now).head? = _
      unfold storeChangeHistory
      rw [if_neg h]
      rfl

end PortableBookmarks
